import Mathlib

/-!
Verification of the XMind document-loading core (`xmind_loader.py`):
archive validation, dual-schema JSON normalization (`DataFormatConverter`),
the bounded process-wide result cache, and the `XmindFileLoader.load`
orchestration, shallowly embedded as executable Lean definitions.
-/

set_option maxRecDepth 4000

/-- JSON values as produced by `json.load`: the raw payload of `content.json`.
Objects are key/value lists with unique keys (Python dict, insertion order). -/
inductive Json where
  | null : Json
  | bool (b : Bool) : Json
  | num (n : Int) : Json
  | str (s : String) : Json
  | arr (items : List Json) : Json
  | obj (fields : List (String × Json)) : Json

namespace Json

/-- Python truthiness of a JSON value (`if not topic_data: ...` etc.):
`None`, `False`, `0`, `""`, `[]`, `{}` are falsy. -/
def truthy : Json → Bool
  | .null => false
  | .bool b => b
  | .num n => n != 0
  | .str s => s != ""
  | .arr items => !items.isEmpty
  | .obj fields => !fields.isEmpty

/-- Object lookup `d[k]`: `none` when the key is missing
(Python `dict.get(k)` distinguishes a missing key from a `None` value
only when a non-`None` default is supplied). -/
def get? : Json → String → Option Json
  | .obj fields, k => fields.lookup k
  | _, _ => none

/-- Python `d.get(k)`: `None` when the key is missing. -/
def getN (j : Json) (k : String) : Json := (j.get? k).getD .null

/-- Python `d.get(k, default)`: the default only when the key is missing. -/
def getD (j : Json) (k : String) (d : Json) : Json := (j.get? k).getD d

end Json

mutual

/-- Structural size of a JSON value, the fuel bound for the recursive
topic conversion. -/
def Json.size : Json → Nat
  | .null => 1
  | .bool _ => 1
  | .num _ => 1
  | .str _ => 1
  | .arr items => 1 + Json.sizeList items
  | .obj fields => 1 + Json.sizeFields fields

/-- Size of a list of JSON values. -/
def Json.sizeList : List Json → Nat
  | [] => 1
  | x :: xs => 1 + Json.size x + Json.sizeList xs

/-- Size of an object's field list. -/
def Json.sizeFields : List (String × Json) → Nat
  | [] => 1
  | (_, v) :: rest => 1 + Json.size v + Json.sizeFields rest

end

/-- One entry of the raw `markers` list, normalized: plain strings kept, objects
contribute `m.get('markerId') or m.get('id')` when that value is a string,
anything else dropped (`DataFormatConverter._convert_topic`, marker loop). -/
def markerOf : Json → Option String
  | .obj fields =>
    let a := (Json.obj fields).getN "markerId"
    let mid := if a.truthy then a else (Json.obj fields).getN "id"
    match mid with
    | .str s => some s
    | _ => none
  | .str s => some s
  | _ => none

/-- The whole marker normalization: only a list input contributes entries. -/
def normalizeMarkers : Json → List String
  | .arr ms => ms.filterMap markerOf
  | _ => []

/-- Note resolution: the explicit `note` field when truthy, else the
`notes.plain.content` path when `notes` and `plain` are objects, else the
original (falsy) `note` value. -/
def resolveNote (j : Json) : Json :=
  let note := j.getN "note"
  if note.truthy then note
  else
    match j.getN "notes" with
    | .obj nfs =>
      match (Json.obj nfs).getN "plain" with
      | .obj pfs => (Json.obj pfs).getN "content"
      | _ => note
    | _ => note

/-- The legacy inline child list: `topic_data.get('topics')` when it is a list,
else the fresh empty list the code substitutes. -/
def legacyChildren (j : Json) : List Json :=
  match j.getN "topics" with
  | .arr l => l
  | _ => []

/-- Whether the raw topic's own `topics` value is a list (in that case the code
appends converted attached children to that very list object, mutating it). -/
def hasLegacyList (j : Json) : Bool :=
  match j.getN "topics" with
  | .arr _ => true
  | _ => false

/-- The modern attached-children list: `topic_data['children']['attached']`
when `children` is an object and `attached` a list, else empty. -/
def childrenAttached (j : Json) : List Json :=
  match j.getN "children" with
  | .obj cfs =>
    match (Json.obj cfs).getN "attached" with
    | .arr a => a
    | _ => []
  | _ => []

/-- The minimal empty Topic synthesized for an absent/falsy raw topic, with the
freshly generated id `u` (`str(uuid.uuid4()).replace('-','')[:26]`). -/
def emptyTopic (u : String) : Json :=
  .obj [("id", .str u), ("link", .null), ("title", .null), ("note", .null),
        ("label", .null), ("comment", .null), ("markers", .arr []), ("topics", .arr [])]

/-- In-place update of the value at key `k` (Python `d[k] = v` for a present
key keeps the key's position). -/
def objSet : List (String × Json) → String → Json → List (String × Json)
  | [], _, _ => []
  | (k0, v0) :: rest, k, v =>
    if k0 = k then (k0, v) :: rest else (k0, v0) :: objSet rest k v

/-- The canonical output dict `_convert_topic` builds for a truthy raw topic
`j` whose attached children converted to `outs`. -/
def mkTopicOut (j : Json) (outs : List Json) : Json :=
  .obj [("id", j.getD "id" (.str "")),
        ("link", j.getN "link"),
        ("title", j.getN "title"),
        ("note", resolveNote j),
        ("label", j.getN "label"),
        ("comment", j.getN "comment"),
        ("markers", .arr ((normalizeMarkers (j.getD "markers" (.arr []))).map .str)),
        ("topics", .arr (legacyChildren j ++ outs))]

/-- The value of the raw topic `j` after `_convert_topic` returns: when `j`'s
own `topics` value is a list, the converted attached children have been
appended to that list in place; the `children.attached` elements have likewise
been replaced by their own post-call values. -/
def postState (j : Json) (outs posts : List Json) : Json :=
  match j with
  | .obj fs =>
    let fs1 := if hasLegacyList j
      then objSet fs "topics" (.arr (legacyChildren j ++ outs)) else fs
    let fs2 :=
      match j.getN "children" with
      | .obj cfs =>
        match (Json.obj cfs).getN "attached" with
        | .arr _ => objSet fs1 "children" (.obj (objSet cfs "attached" (.arr posts)))
        | _ => fs1
      | _ => fs1
    .obj fs2
  | _ => j

/-- A pending recursive conversion: one raw topic, or a list of attached
children still to convert. -/
inductive ConvIn where
  | topic (j : Json)
  | childList (l : List Json)

/-- Fuel-indexed engine for `_convert_topic`. For `.topic j` it yields the
singleton `[(output, post-call value of j)]`; for `.childList l` the list of
such pairs in order. The counter threads the uuid supply `gen` consumed by
synthesized empty topics. `none` models a raised exception (a truthy non-dict
raw topic: `AttributeError` on `.get`) — or exhausted fuel, which
`convertRun_stable` shows never occurs from `Json.size`-derived bounds. -/
def convertRun (gen : Nat → String) : Nat → ConvIn → Nat → Option (List (Json × Json) × Nat)
  | 0, _, _ => none
  | fuel + 1, .topic j, ctr =>
    if j.truthy = false then some ([(emptyTopic (gen ctr), j)], ctr + 1)
    else
      match j with
      | .obj _ =>
        match convertRun gen fuel (.childList (childrenAttached j)) ctr with
        | none => none
        | some (pairs, ctr') =>
          some ([(mkTopicOut j (pairs.map Prod.fst),
                  postState j (pairs.map Prod.fst) (pairs.map Prod.snd))], ctr')
      | _ => none
  | _ + 1, .childList [], ctr => some ([], ctr)
  | fuel + 1, .childList (x :: xs), ctr =>
    match convertRun gen fuel (.topic x) ctr with
    | none => none
    | some (ps, ctr') =>
      match convertRun gen fuel (.childList xs) ctr' with
      | none => none
      | some (rest, ctr'') => some (ps ++ rest, ctr'')

/-- Source `DataFormatConverter._convert_topic`: returns (canonical output dict,
post-call value of the raw input, uuid counter), or `none` for an exception. -/
def convert_topic (gen : Nat → String) (j : Json) (ctr : Nat) : Option (Json × Json × Nat) :=
  match convertRun gen (j.size + 1) (.topic j) ctr with
  | some ((o, p) :: _, c) => some (o, p, c)
  | _ => none

/-- The conversion of a list of attached children, as run inside
`_convert_topic`'s loop over `children['attached']`. -/
def convert_children (gen : Nat → String) (l : List Json) (ctr : Nat) :
    Option (List (Json × Json) × Nat) :=
  convertRun gen (Json.sizeList l) (.childList l) ctr

/-- Legacy-schema raw-topic selection for one sheet:
`sheet.get('topic', sheet.get('rootTopic', {}))`. -/
def legacyTopicRaw (sheet : Json) : Json :=
  match sheet.get? "topic" with
  | some v => v
  | none =>
    match sheet.get? "rootTopic" with
    | some v => v
    | none => .obj []

/-- Modern-schema raw-topic selection for one sheet: `sheet.get('topic', {})`
— no `rootTopic` fallback in this branch. -/
def modernTopicRaw (sheet : Json) : Json := (sheet.get? "topic").getD (.obj [])

/-- The converted sheet dict: `{'id': sheet.get('id',''), 'title':
sheet.get('title'), 'topic': <converted>}`. -/
def sheetOut (sheet topicOut : Json) : Json :=
  .obj [("id", sheet.getD "id" (.str "")),
        ("title", sheet.getN "title"),
        ("topic", topicOut)]

/-- One legacy-schema sheet (`convert_to_xmind_format`, array branch); a
non-dict sheet raises (`.get` on it) hence `none`. -/
def convert_sheet_legacy (gen : Nat → String) (sheet : Json) (ctr : Nat) :
    Option (Json × Nat) :=
  match sheet with
  | .obj _ =>
    match convert_topic gen (legacyTopicRaw sheet) ctr with
    | none => none
    | some (o, _, c) => some (sheetOut sheet o, c)
  | _ => none

/-- One modern-schema sheet (`convert_to_xmind_format`, dict branch). -/
def convert_sheet_modern (gen : Nat → String) (sheet : Json) (ctr : Nat) :
    Option (Json × Nat) :=
  match sheet with
  | .obj _ =>
    match convert_topic gen (modernTopicRaw sheet) ctr with
    | none => none
    | some (o, _, c) => some (sheetOut sheet o, c)
  | _ => none

/-- The sheet loop: convert each raw sheet in order, aborting on the first
exception. -/
def convertSheets (conv : Json → Nat → Option (Json × Nat)) :
    List Json → Nat → Option (List Json × Nat)
  | [], c => some ([], c)
  | s :: rest, c =>
    match conv s c with
    | none => none
    | some (o, c') =>
      match convertSheets conv rest c' with
      | none => none
      | some (os, c'') => some (o :: os, c'')

/-- Membership `'sheets' in s` on a Python string is a substring test. -/
def containsSheets (s : String) : Bool := (s.splitOn "sheets").length != 1

/-- Source `DataFormatConverter.convert_to_xmind_format`: dispatch on the payload
root. A falsy root yields `[]`; a list root is the legacy schema; a dict root
the modern schema (`'sheets'` missing yields `[]`; a non-list `sheets` value
raises unless iterating it does nothing); any other truthy root raises, except
a string root without the substring `'sheets'` (Python `in` on `str`). -/
def convert_to_xmind_format (gen : Nat → String) (content : Json) (ctr : Nat) :
    Option (List Json × Nat) :=
  if content.truthy = false then some ([], ctr)
  else
    match content with
    | .arr sheets => convertSheets (convert_sheet_legacy gen) sheets ctr
    | .obj _ =>
      match content.get? "sheets" with
      | none => some ([], ctr)
      | some (.arr sheets) => convertSheets (convert_sheet_modern gen) sheets ctr
      | some (.str s) => if s.isEmpty then some ([], ctr) else none
      | some (.obj fs) => if fs.isEmpty then some ([], ctr) else none
      | some _ => none
    | .str s => if containsSheets s then none else some ([], ctr)
    | _ => none

/-- Source `ContentJsonParser._validate_content_structure` as a predicate: a
non-empty array (legacy) or a dict whose `sheets` value is a non-empty list
(modern); anything else raises a `ValueError`. -/
def validate_content_structure : Json → Bool
  | .arr l => !l.isEmpty
  | .obj fs =>
    match (Json.obj fs).get? "sheets" with
    | some (.arr s) => !s.isEmpty
    | _ => false
  | _ => false

/-- Abstraction of one file on disk as the loader observes it: existence,
path, `os.stat` data, whether `zipfile.ZipFile` can open it, whether
`testzip()` reports no corruption, the archive entry names, and the result of
`json.load` on its `content.json` (`none` = `json.JSONDecodeError`). -/
structure XFile where
  present : Bool
  path : String
  mtime : Nat
  size : Nat
  zipOpenable : Bool
  zipTestOk : Bool
  entries : List String
  contentParse : Option Json

/-- ASCII lower-casing of one character (model of Python `str.lower` for the
ASCII archive paths this loader sees). -/
def lowerChar (c : Char) : Char :=
  if 65 ≤ c.toNat ∧ c.toNat ≤ 90 then Char.ofNat (c.toNat + 32) else c

/-- Lower-case a path string, character by character. -/
def lowerStr (s : String) : String := String.mk (s.toList.map lowerChar)

/-- Python `str.endswith`. -/
def strEndsWith (s suffix : String) : Bool := suffix.toList.isSuffixOf s.toList

/-- Source `validate_xmind_file`: existence, `.xmind` extension (case-insensitive),
non-zero size, openable archive, clean `testzip`, and a `content.json` entry —
checked in this order; every internal exception is caught and surfaces only as
the single boolean `False`. -/
def validate_xmind_file (f : XFile) : Bool :=
  f.present && strEndsWith (lowerStr f.path) ".xmind" && (f.size != 0)
    && f.zipOpenable && f.zipTestOk && f.entries.contains "content.json"

/-- A value of the process-wide `_file_cache`: the converted document plus the
`time.time()` of its insertion. -/
structure CacheEntry where
  data : List Json
  timestamp : Nat

/-- The process-wide `_file_cache` dict, in insertion order (Python dicts keep
insertion order; updating a present key keeps its position). -/
abbrev Cache := List (String × CacheEntry)

/-- Source `_cache_max_size`. -/
def cacheMaxSize : Nat := 100

/-- Source `_get_file_cache_key`: the key string built from path, mtime and size, or the bare path when
`os.stat` fails (nonexistent file). -/
def get_file_cache_key (f : XFile) : String :=
  if f.present then f.path ++ "_" ++ toString f.mtime ++ "_" ++ toString f.size
  else f.path

/-- Source `_get_cached_data`: a pure dict read, no mutation of the cache. -/
def get_cached_data (c : Cache) (f : XFile) : Option CacheEntry :=
  c.lookup (get_file_cache_key f)

/-- Eviction choice, Python min over keys by timestamp: the first entry in
iteration order attaining the minimal timestamp. -/
def oldestEntry : Cache → Option (String × CacheEntry)
  | [] => none
  | (k, e) :: rest =>
    match oldestEntry rest with
    | none => some (k, e)
    | some (k', e') => if e'.timestamp < e.timestamp then some (k', e') else some (k, e)

/-- Deletion of one key, Python del. -/
def eraseKey : Cache → String → Cache
  | [], _ => []
  | (k0, e0) :: rest, k => if k0 = k then rest else (k0, e0) :: eraseKey rest k

/-- Store under a key, Python dict assignment: update in place when present, else
append at the end of the iteration order. -/
def upsert : Cache → String → CacheEntry → Cache
  | [], k, e => [(k, e)]
  | (k0, e0) :: rest, k, e =>
    if k0 = k then (k0, e) :: rest else (k0, e0) :: upsert rest k e

/-- Source `_set_cached_data`: when the cache already holds at least `cap` entries,
evict the entry with the smallest timestamp, then store under `key`. -/
def set_cached_data (cap : Nat) (c : Cache) (key : String) (d : List Json)
    (now : Nat) : Cache :=
  let c1 :=
    if cap ≤ c.length then
      match oldestEntry c with
      | some (k0, _) => eraseKey c k0
      | none => c
    else c
  upsert c1 key ⟨d, now⟩

/-- The `error_type` tags `XmindLoadError` is raised with inside
`XmindFileLoader`. -/
inductive LoadTag where
  | FILE_VALIDATION
  | BAD_ZIP_FILE
  | EXTRACTION_FAILED
  | LOAD_FAILED
  deriving DecidableEq

/-- Outcome of one `load` call: a raised `XmindLoadError` tag or the returned
converted document. -/
inductive LoadRes where
  | err (tag : LoadTag)
  | ok (data : List Json)

/-- Everything observable about one `XmindFileLoader.load` call: its outcome,
the global cache and clocks afterwards, the loader's `content_data` field,
whether the result came from the cache, whether a temporary extraction
directory was created, whether `_cleanup` ran on this path, and the
`temp_dir` field's final value (`none` = removed or never created). -/
structure LoadOutput where
  res : LoadRes
  cache : Cache
  clock : Nat
  ctr : Nat
  content : Option (List Json)
  cacheHit : Bool
  tempCreated : Bool
  cleanupRan : Bool
  tempAfter : Option Nat

namespace XmindFileLoader

/-- Source `XmindFileLoader.load` on a fresh loader for file `f`, with the global
cache state `cache`, logical time `clock`, uuid counter `ctr` and the
loader's prior `content_data` `content0`. Control flow of the source: cache
hit returns immediately; a failed validation raises `FILE_VALIDATION`; then
extract (always succeeds once the archive was validated), parse and
schema-check `content.json` (any exception is wrapped as `LOAD_FAILED`),
convert, insert into the cache, and clean the temporary directory — which is
also cleaned, explicitly, in both `except` arms. -/
def load (gen : Nat → String) (cap : Nat) (f : XFile) (cache : Cache)
    (clock ctr : Nat) (content0 : Option (List Json)) : LoadOutput :=
  match get_cached_data cache f with
  | some e =>
    { res := .ok e.data, cache := cache, clock := clock, ctr := ctr,
      content := some e.data, cacheHit := true, tempCreated := false,
      cleanupRan := false, tempAfter := none }
  | none =>
    if validate_xmind_file f = false then
      { res := .err .FILE_VALIDATION, cache := cache, clock := clock, ctr := ctr,
        content := content0, cacheHit := false, tempCreated := false,
        cleanupRan := true, tempAfter := none }
    else
      match f.contentParse with
      | none =>
        { res := .err .LOAD_FAILED, cache := cache, clock := clock, ctr := ctr,
          content := content0, cacheHit := false, tempCreated := true,
          cleanupRan := true, tempAfter := none }
      | some cj =>
        if validate_content_structure cj = false then
          { res := .err .LOAD_FAILED, cache := cache, clock := clock, ctr := ctr,
            content := content0, cacheHit := false, tempCreated := true,
            cleanupRan := true, tempAfter := none }
        else
          match convert_to_xmind_format gen cj ctr with
          | none =>
            { res := .err .LOAD_FAILED, cache := cache, clock := clock, ctr := ctr,
              content := content0, cacheHit := false, tempCreated := true,
              cleanupRan := true, tempAfter := none }
          | some (d, ctr') =>
            { res := .ok d,
              cache := set_cached_data cap cache (get_file_cache_key f) d clock,
              clock := clock + 1, ctr := ctr', content := some d,
              cacheHit := false, tempCreated := true, cleanupRan := true,
              tempAfter := none }

/-- Source `XmindFileLoader.getData`: the data if truthy else the empty list. -/
def getData (content : Option (List Json)) : List Json :=
  match content with
  | some d => if d.isEmpty then [] else d
  | none => []

end XmindFileLoader

/-- Source `XmindWorkbookWrapper.__len__`: the list length if truthy else 0. -/
def XmindWorkbookWrapper.len (data : List Json) : Nat :=
  if data.isEmpty then 0 else data.length

/-- One interaction with the module-level cache: an insertion
(`_set_cached_data`) or a lookup (`_get_cached_data`). -/
inductive CacheOp where
  | ins (key : String) (data : List Json)
  | qry (key : String)

/-- Run a sequence of cache interactions, one time tick each; lookups do not
modify the cache (the source's `_get_cached_data` is a plain `dict.get`). -/
def runOps (cap : Nat) : List CacheOp → Cache → Nat → Cache
  | [], c, _ => c
  | .ins k d :: rest, c, t => runOps cap rest (set_cached_data cap c k d t) (t + 1)
  | .qry _ :: rest, c, t => runOps cap rest c (t + 1)

/-- The keys inserted by a sequence of cache interactions, in order. -/
def insKeys : List CacheOp → List String
  | [] => []
  | .ins k _ :: rest => k :: insKeys rest
  | .qry _ :: rest => insKeys rest

/-- The timestamps of a cache, in iteration order. -/
def tsList (c : Cache) : List Nat := c.map fun e => e.2.timestamp

/-- The keys of a cache, in iteration order. -/
def keysList (c : Cache) : List String := c.map fun e => e.1

/-- Fuel sufficient to run a conversion input to completion. -/
def ConvIn.bound : ConvIn → Nat
  | .topic j => j.size + 1
  | .childList l => Json.sizeList l

theorem Json.size_pos (j : Json) : 0 < j.size := by
  cases j <;> simp [Json.size]

theorem Json.sizeList_pos (l : List Json) : 0 < Json.sizeList l := by
  cases l <;> simp [Json.sizeList]

theorem ConvIn.bound_pos (inp : ConvIn) : 0 < inp.bound := by
  cases inp with
  | topic j => simp [ConvIn.bound]
  | childList l => exact Json.sizeList_pos l

theorem lookup_size_lt {fs : List (String × Json)} {k : String} {v : Json}
    (h : fs.lookup k = some v) : v.size < (Json.obj fs).size := by
  induction fs with
  | nil => simp [List.lookup] at h
  | cons hd tl ih =>
    obtain ⟨k0, v0⟩ := hd
    rw [List.lookup] at h
    by_cases hk : k == k0
    · simp [hk] at h
      subst h
      simp [Json.size, Json.sizeFields]
      omega
    · simp [hk] at h
      have := ih h
      simp [Json.size, Json.sizeFields] at this ⊢
      omega

theorem get?_size_lt {j : Json} {k : String} {v : Json}
    (h : j.get? k = some v) : v.size < j.size := by
  cases j <;> simp [Json.get?] at h
  exact lookup_size_lt h

theorem getN_obj_get? {j : Json} {k : String} {cfs : List (String × Json)}
    (h : j.getN k = .obj cfs) : j.get? k = some (.obj cfs) := by
  unfold Json.getN at h
  cases hh : j.get? k with
  | none => rw [hh] at h; simp [Option.getD] at h
  | some v => rw [hh] at h; simp [Option.getD] at h; rw [h]

theorem getN_arr_get? {j : Json} {k : String} {a : List Json}
    (h : j.getN k = .arr a) : j.get? k = some (.arr a) := by
  unfold Json.getN at h
  cases hh : j.get? k with
  | none => rw [hh] at h; simp [Option.getD] at h
  | some v => rw [hh] at h; simp [Option.getD] at h; rw [h]

theorem childrenAttached_size_le (j : Json) :
    Json.sizeList (childrenAttached j) ≤ j.size := by
  have hpos := j.size_pos
  cases hc : j.getN "children" with
  | obj cfs =>
    cases ha : (Json.obj cfs).getN "attached" with
    | arr a =>
      have h1 : (Json.obj cfs).size < j.size := get?_size_lt (getN_obj_get? hc)
      have h2 : (Json.arr a).size < (Json.obj cfs).size := get?_size_lt (getN_arr_get? ha)
      simp only [Json.size] at h1 h2
      simp only [childrenAttached, hc, ha]
      omega
    | null => simp only [childrenAttached, hc, ha, Json.sizeList]; omega
    | bool b => simp only [childrenAttached, hc, ha, Json.sizeList]; omega
    | num n => simp only [childrenAttached, hc, ha, Json.sizeList]; omega
    | str s => simp only [childrenAttached, hc, ha, Json.sizeList]; omega
    | obj o => simp only [childrenAttached, hc, ha, Json.sizeList]; omega
  | null => simp only [childrenAttached, hc, Json.sizeList]; omega
  | bool b => simp only [childrenAttached, hc, Json.sizeList]; omega
  | num n => simp only [childrenAttached, hc, Json.sizeList]; omega
  | str s => simp only [childrenAttached, hc, Json.sizeList]; omega
  | arr a => simp only [childrenAttached, hc, Json.sizeList]; omega

/-- Above its `ConvIn.bound`, the fuel value does not influence the result of
`convertRun`: the engine is a total function of the input. -/
theorem convertRun_stable (gen : Nat → String) :
    ∀ (n : Nat) (inp : ConvIn) (ctr f1 f2 : Nat), inp.bound ≤ n →
      inp.bound ≤ f1 → inp.bound ≤ f2 →
      convertRun gen f1 inp ctr = convertRun gen f2 inp ctr := by
  intro n
  induction n with
  | zero => intro inp _ _ _ h0 _ _; have := inp.bound_pos; omega
  | succ n ih =>
    intro inp ctr f1 f2 hn h1 h2
    obtain ⟨a, rfl⟩ : ∃ a, f1 = a + 1 := ⟨f1 - 1, by have := inp.bound_pos; omega⟩
    obtain ⟨b, rfl⟩ : ∃ b, f2 = b + 1 := ⟨f2 - 1, by have := inp.bound_pos; omega⟩
    cases inp with
    | topic j =>
      simp only [ConvIn.bound] at hn h1 h2
      simp only [convertRun]
      cases ht : j.truthy with
      | false => rfl
      | true =>
        simp only [Bool.true_eq_false, if_false]
        cases j with
        | obj fs =>
          have hsub : Json.sizeList (childrenAttached (.obj fs)) ≤ (Json.obj fs).size :=
            childrenAttached_size_le _
          rw [ih (.childList (childrenAttached (.obj fs))) ctr a b
            (by simp only [ConvIn.bound]; omega)
            (by simp only [ConvIn.bound]; omega)
            (by simp only [ConvIn.bound]; omega)]
        | null => rfl
        | bool b => rfl
        | num nn => rfl
        | str s => rfl
        | arr l => rfl
    | childList l =>
      cases l with
      | nil => simp only [convertRun]
      | cons x xs =>
        simp only [ConvIn.bound, Json.sizeList] at hn h1 h2
        have hxs := Json.sizeList_pos xs
        have hx := Json.size_pos x
        simp only [convertRun]
        rw [ih (.topic x) ctr a b
          (by simp only [ConvIn.bound]; omega)
          (by simp only [ConvIn.bound]; omega)
          (by simp only [ConvIn.bound]; omega)]
        cases convertRun gen b (.topic x) ctr with
        | none => rfl
        | some r =>
          obtain ⟨ps, ctr'⟩ := r
          simp only []
          rw [ih (.childList xs) ctr' a b
            (by simp only [ConvIn.bound]; omega)
            (by simp only [ConvIn.bound]; omega)
            (by simp only [ConvIn.bound]; omega)]

theorem convertRun_topic_succ (gen : Nat → String) (fuel : Nat) (j : Json) (ctr : Nat) :
    convertRun gen (fuel + 1) (.topic j) ctr =
      if j.truthy = false then some ([(emptyTopic (gen ctr), j)], ctr + 1)
      else
        match j with
        | .obj _ =>
          match convertRun gen fuel (.childList (childrenAttached j)) ctr with
          | none => none
          | some (pairs, ctr') =>
            some ([(mkTopicOut j (pairs.map Prod.fst),
                    postState j (pairs.map Prod.fst) (pairs.map Prod.snd))], ctr')
        | _ => none := rfl

theorem convertRun_childCons_succ (gen : Nat → String) (fuel : Nat) (x : Json)
    (xs : List Json) (ctr : Nat) :
    convertRun gen (fuel + 1) (.childList (x :: xs)) ctr =
      match convertRun gen fuel (.topic x) ctr with
      | none => none
      | some (ps, ctr') =>
        match convertRun gen fuel (.childList xs) ctr' with
        | none => none
        | some (rest, ctr'') => some (ps ++ rest, ctr'') := rfl

theorem convertRun_topic_shape (gen : Nat → String) (f : Nat) (j : Json) (ctr : Nat) :
    convertRun gen f (.topic j) ctr = none ∨
      ∃ o p c, convertRun gen f (.topic j) ctr = some ([(o, p)], c) := by
  cases f with
  | zero => left; rfl
  | succ fuel =>
    rw [convertRun_topic_succ]
    cases ht : j.truthy with
    | false =>
      right
      exact ⟨emptyTopic (gen ctr), j, ctr + 1, by simp⟩
    | true =>
      simp only [Bool.true_eq_false, if_false]
      cases j with
      | obj fs =>
        cases hr : convertRun gen fuel (.childList (childrenAttached (.obj fs))) ctr with
        | none => left; simp [hr]
        | some r =>
          obtain ⟨pairs, c'⟩ := r
          right
          exact ⟨mkTopicOut (.obj fs) (pairs.map Prod.fst),
                 postState (.obj fs) (pairs.map Prod.fst) (pairs.map Prod.snd), c',
                 by simp [hr]⟩
      | null => left; rfl
      | bool b => left; rfl
      | num n => left; rfl
      | str s => left; rfl
      | arr l => left; rfl

/-- Equation: a falsy raw topic synthesizes the empty topic with a fresh id and
leaves its input untouched. -/
theorem convert_topic_falsy (gen : Nat → String) (j : Json) (ctr : Nat)
    (h : j.truthy = false) :
    convert_topic gen j ctr = some (emptyTopic (gen ctr), j, ctr + 1) := by
  unfold convert_topic
  rw [convertRun_topic_succ, if_pos h]

/-- Equation: a truthy non-object raw topic raises (`AttributeError`). -/
theorem convert_topic_notObj (gen : Nat → String) (j : Json) (ctr : Nat)
    (ht : j.truthy = true) (hno : ∀ fs, j ≠ .obj fs) :
    convert_topic gen j ctr = none := by
  unfold convert_topic
  rw [convertRun_topic_succ, if_neg (by simp [ht])]
  cases j with
  | obj fs => exact absurd rfl (hno fs)
  | null => rfl
  | bool b => rfl
  | num n => rfl
  | str s => rfl
  | arr l => rfl

/-- Equation: a truthy object raw topic converts its attached children and
assembles the canonical output and the post-call input value. -/
theorem convert_topic_obj (gen : Nat → String) (fs : List (String × Json)) (ctr : Nat)
    (h : (Json.obj fs).truthy = true) :
    convert_topic gen (.obj fs) ctr =
      match convert_children gen (childrenAttached (.obj fs)) ctr with
      | none => none
      | some (pairs, c') =>
        some (mkTopicOut (.obj fs) (pairs.map Prod.fst),
              postState (.obj fs) (pairs.map Prod.fst) (pairs.map Prod.snd), c') := by
  unfold convert_topic convert_children
  rw [convertRun_topic_succ, if_neg (by simp [h])]
  dsimp only
  rw [convertRun_stable gen ((Json.obj fs).size)
    (.childList (childrenAttached (.obj fs))) ctr ((Json.obj fs).size)
    (Json.sizeList (childrenAttached (.obj fs)))
    (by simpa only [ConvIn.bound] using childrenAttached_size_le (Json.obj fs))
    (by simpa only [ConvIn.bound] using childrenAttached_size_le (Json.obj fs))
    (by simp only [ConvIn.bound]; exact le_rfl)]
  cases convertRun gen (Json.sizeList (childrenAttached (.obj fs)))
      (.childList (childrenAttached (.obj fs))) ctr with
  | none => rfl
  | some r => obtain ⟨pairs, c'⟩ := r; rfl

/-- Equation: converting an empty child list does nothing. -/
theorem convert_children_nil (gen : Nat → String) (ctr : Nat) :
    convert_children gen [] ctr = some ([], ctr) := rfl

/-- Equation: the child loop converts the head, then the tail, threading the
uuid counter, aborting at the first exception. -/
theorem convert_children_cons (gen : Nat → String) (x : Json) (xs : List Json) (ctr : Nat) :
    convert_children gen (x :: xs) ctr =
      match convert_topic gen x ctr with
      | none => none
      | some (o, p, c') =>
        match convert_children gen xs c' with
        | none => none
        | some (rest, c'') => some ((o, p) :: rest, c'') := by
  have hx := Json.size_pos x
  have hxs := Json.sizeList_pos xs
  conv_lhs => rw [show convert_children gen (x :: xs) ctr
    = convertRun gen (Json.sizeList (x :: xs)) (.childList (x :: xs)) ctr from rfl]
  rw [convertRun_stable gen (Json.sizeList (x :: xs)) (.childList (x :: xs)) ctr
    (Json.sizeList (x :: xs)) (x.size + Json.sizeList xs + 1)
    (by simp only [ConvIn.bound]; exact le_rfl)
    (by simp only [ConvIn.bound]; exact le_rfl)
    (by simp only [ConvIn.bound, Json.sizeList]; omega)]
  rw [convertRun_childCons_succ]
  rw [convertRun_stable gen (x.size + 1) (.topic x) ctr
    (x.size + Json.sizeList xs) (x.size + 1)
    (by simp only [ConvIn.bound]; exact le_rfl)
    (by simp only [ConvIn.bound]; omega)
    (by simp only [ConvIn.bound]; exact le_rfl)]
  rcases convertRun_topic_shape gen (x.size + 1) x ctr with hsh | ⟨o, p, c', hsh⟩
  · have hct : convert_topic gen x ctr = none := by
      unfold convert_topic; rw [hsh]
    rw [hsh, hct]
  · have hct : convert_topic gen x ctr = some (o, p, c') := by
      unfold convert_topic; rw [hsh]
    rw [hsh, hct]
    dsimp only
    rw [convertRun_stable gen (Json.sizeList xs) (.childList xs) c'
      (x.size + Json.sizeList xs) (Json.sizeList xs)
      (by simp only [ConvIn.bound]; exact le_rfl)
      (by simp only [ConvIn.bound]; omega)
      (by simp only [ConvIn.bound]; exact le_rfl)]
    rw [show convert_children gen xs c'
      = convertRun gen (Json.sizeList xs) (.childList xs) c' from rfl]
    cases convertRun gen (Json.sizeList xs) (.childList xs) c' with
    | none => rfl
    | some r => obtain ⟨rest, c''⟩ := r; rfl

theorem lookup_objSet_self {fs : List (String × Json)} {k : String} (v : Json)
    (h : (fs.lookup k).isSome) : (objSet fs k v).lookup k = some v := by
  induction fs with
  | nil => simp [List.lookup] at h
  | cons hd rest ih =>
    obtain ⟨k0, v0⟩ := hd
    by_cases hk : k0 = k
    · subst hk
      simp [objSet, List.lookup]
    · rw [List.lookup] at h
      have hbeq : (k == k0) = false := by simp [Ne.symm hk]
      rw [hbeq] at h
      simp only [objSet, if_neg hk, List.lookup, hbeq]
      exact ih h

theorem lookup_objSet_ne {fs : List (String × Json)} {k k' : String} (v : Json)
    (h : k' ≠ k) : (objSet fs k v).lookup k' = fs.lookup k' := by
  induction fs with
  | nil => rfl
  | cons hd rest ih =>
    obtain ⟨k0, v0⟩ := hd
    by_cases hk : k0 = k
    · subst hk
      have hbeq : (k' == k0) = false := by simp [h]
      simp [objSet, List.lookup, hbeq]
    · simp only [objSet, if_neg hk, List.lookup]
      cases hk' : (k' == k0) with
      | true => rfl
      | false => exact ih

theorem lookup_upsert_self (c : Cache) (k : String) (e : CacheEntry) :
    (upsert c k e).lookup k = some e := by
  induction c with
  | nil => simp [upsert, List.lookup]
  | cons hd rest ih =>
    obtain ⟨k0, e0⟩ := hd
    by_cases hk : k0 = k
    · subst hk
      simp [upsert, List.lookup]
    · have hbeq : (k == k0) = false := by simp [Ne.symm hk]
      simp only [upsert, if_neg hk, List.lookup, hbeq]
      exact ih

theorem upsert_of_fresh {c : Cache} {k : String} (e : CacheEntry)
    (h : c.lookup k = none) : upsert c k e = c ++ [(k, e)] := by
  induction c with
  | nil => rfl
  | cons hd rest ih =>
    obtain ⟨k0, e0⟩ := hd
    rw [List.lookup] at h
    cases hk : (k == k0) with
    | true => rw [hk] at h; exact Option.noConfusion h
    | false =>
      rw [hk] at h
      have hne : k0 ≠ k := by
        intro hkk
        subst hkk
        simp at hk
      rw [upsert, if_neg hne, List.cons_append, ih h]

theorem lookup_eq_none_iff_keys (c : Cache) (k : String) :
    c.lookup k = none ↔ k ∉ keysList c := by
  induction c with
  | nil => simp [List.lookup, keysList]
  | cons hd rest ih =>
    obtain ⟨k0, e0⟩ := hd
    rw [List.lookup]
    cases hk : (k == k0) with
    | true =>
      have : k = k0 := by simpa using hk
      subst this
      simp [keysList]
    | false =>
      have hne : k ≠ k0 := by
        intro hkk
        subst hkk
        simp at hk
      simp only [keysList, List.map_cons, List.mem_cons, not_or]
      simp only [keysList] at ih
      constructor
      · intro hnone
        exact ⟨hne, (ih.mp hnone)⟩
      · intro hh
        exact ih.mpr hh.2

theorem oldestEntry_mem {c : Cache} {ke : String × CacheEntry}
    (h : oldestEntry c = some ke) : ke ∈ c := by
  induction c generalizing ke with
  | nil => exact Option.noConfusion h
  | cons hd rest ih =>
    obtain ⟨k0, e0⟩ := hd
    rw [oldestEntry] at h
    cases hr : oldestEntry rest with
    | none =>
      rw [hr] at h
      simp at h
      simp [h]
    | some ke' =>
      obtain ⟨k1, e1⟩ := ke'
      rw [hr] at h
      dsimp only at h
      by_cases hlt : e1.timestamp < e0.timestamp
      · rw [if_pos hlt] at h
        have hmem := ih hr
        simp at h
        rw [h] at hmem
        exact List.mem_cons_of_mem _ hmem
      · rw [if_neg hlt] at h
        simp at h
        simp [h]

theorem oldestEntry_head (k : String) (e : CacheEntry) (rest : Cache)
    (hch : List.Chain' (fun a b => a < b) (tsList ((k, e) :: rest))) :
    oldestEntry ((k, e) :: rest) = some (k, e) := by
  have hpw := List.chain'_iff_pairwise.mp hch
  have hts : tsList ((k, e) :: rest) = e.timestamp :: tsList rest := rfl
  rw [hts, List.pairwise_cons] at hpw
  rw [oldestEntry]
  cases hr : oldestEntry rest with
  | none => rfl
  | some ke' =>
    obtain ⟨k1, e1⟩ := ke'
    have hmem : (k1, e1) ∈ rest := oldestEntry_mem hr
    have hlt : e.timestamp < e1.timestamp :=
      hpw.1 _ (List.mem_map_of_mem (fun x => x.2.timestamp) hmem)
    dsimp only
    rw [if_neg (by omega)]

theorem eraseKey_head (k : String) (e : CacheEntry) (rest : Cache) :
    eraseKey ((k, e) :: rest) k = rest := by
  simp [eraseKey]

/-- Inserting into a full cache with strictly increasing timestamps and a
fresh key drops exactly the first (oldest) entry and appends the new one. -/
theorem set_cached_data_at_capacity (cap : Nat) (c : Cache) (k : String)
    (d : List Json) (t : Nat) (hcap : 1 ≤ cap) (hlen : c.length = cap)
    (hch : List.Chain' (fun a b => a < b) (tsList c))
    (hfresh : c.lookup k = none) :
    set_cached_data cap c k d t = c.tail ++ [(k, ⟨d, t⟩)] := by
  cases c with
  | nil => simp at hlen; omega
  | cons hd rest =>
    obtain ⟨k0, e0⟩ := hd
    unfold set_cached_data
    rw [if_pos (by simp [hlen])]
    rw [oldestEntry_head k0 e0 rest hch]
    dsimp only
    rw [eraseKey_head]
    rw [List.lookup] at hfresh
    cases hk : (k == k0) with
    | true => rw [hk] at hfresh; exact Option.noConfusion hfresh
    | false =>
      rw [hk] at hfresh
      rw [upsert_of_fresh _ hfresh]
      rfl

theorem set_cached_data_under_capacity (cap : Nat) (c : Cache) (k : String)
    (d : List Json) (t : Nat) (hlen : c.length < cap) :
    set_cached_data cap c k d t = upsert c k ⟨d, t⟩ := by
  unfold set_cached_data
  rw [if_neg (by omega)]

theorem runOps_no_ins (cap : Nat) : ∀ (ops : List CacheOp) (c : Cache) (t : Nat),
    insKeys ops = [] → runOps cap ops c t = c := by
  intro ops
  induction ops with
  | nil => intro c t _; rfl
  | cons op rest ih =>
    intro c t h
    cases op with
    | ins k d => simp [insKeys] at h
    | qry k => rw [runOps]; exact ih c (t + 1) h

theorem tsList_append_single (c : Cache) (k : String) (e : CacheEntry) :
    tsList (c ++ [(k, e)]) = tsList c ++ [e.timestamp] := by
  simp [tsList]

theorem keysList_append (c c' : Cache) :
    keysList (c ++ c') = keysList c ++ keysList c' := by
  simp [keysList]

theorem keysList_tail (c : Cache) : keysList c.tail = (keysList c).tail := by
  cases c <;> rfl

theorem chain'_lt_append_single {l : List Nat} {t : Nat}
    (hch : List.Chain' (fun a b => a < b) l) (hall : ∀ x ∈ l, x < t) :
    List.Chain' (fun a b => a < b) (l ++ [t]) := by
  rw [List.chain'_iff_pairwise] at hch ⊢
  rw [List.pairwise_append]
  refine ⟨hch, by simp, ?_⟩
  intro x hx y hy
  rw [List.mem_singleton] at hy
  subst hy
  exact hall x hx

/-- Running any interleaving of lookups and exactly `cap + 1` insertions of
fresh, pairwise-distinct keys against a cache below capacity ends with the
oldest key evicted: the surviving keys are everything but the first. -/
theorem runOps_overflow (cap : Nat) : ∀ (ops : List CacheOp) (c : Cache) (t : Nat),
    1 ≤ cap →
    insKeys ops ≠ [] →
    (keysList c ++ insKeys ops).Nodup →
    c.length + (insKeys ops).length = cap + 1 →
    List.Chain' (fun a b => a < b) (tsList c) →
    (∀ x ∈ tsList c, x < t) →
    keysList (runOps cap ops c t) = (keysList c ++ insKeys ops).tail := by
  intro ops
  induction ops with
  | nil => intro c t _ hne _ _ _ _; exact absurd rfl hne
  | cons op rest ih =>
    intro c t hcap hne hnd hlen hch hall
    cases op with
    | qry k =>
      rw [runOps]
      exact ih c (t + 1) hcap hne hnd hlen hch
        (fun x hx => Nat.lt_succ_of_lt (hall x hx))
    | ins k d =>
      have hkeys : insKeys (CacheOp.ins k d :: rest) = k :: insKeys rest := rfl
      rw [runOps]
      rw [hkeys] at hnd hlen ⊢
      have hfreshk : k ∉ keysList c := by
        rw [List.nodup_append] at hnd
        intro hmem
        exact hnd.2.2 hmem (List.mem_cons_self k _)
      have hlookup : c.lookup k = none := (lookup_eq_none_iff_keys c k).mpr hfreshk
      cases hr : insKeys rest with
      | nil =>
        have hclen : c.length = cap := by
          rw [hr] at hlen
          simp at hlen
          omega
        rw [runOps_no_ins cap rest _ _ hr]
        rw [set_cached_data_at_capacity cap c k d t hcap hclen hch hlookup]
        have hcne : c ≠ [] := by
          intro hc
          rw [hc] at hclen
          simp at hclen
          omega
        cases c with
        | nil => exact absurd rfl hcne
        | cons hd tl =>
          rw [keysList_append]
          rfl
      | cons k2 ks2 =>
        have hclen : c.length < cap := by
          rw [hr] at hlen
          simp [List.length_cons] at hlen
          omega
        rw [set_cached_data_under_capacity cap c k d t hclen,
          upsert_of_fresh _ hlookup]
        have hres := ih (c ++ [(k, ⟨d, t⟩)]) (t + 1) hcap
          (by rw [hr]; simp)
          (by
            rw [keysList_append]
            have : keysList c ++ keysList [(k, CacheEntry.mk d t)] ++ insKeys rest
                = keysList c ++ k :: insKeys rest := by
              simp [keysList]
            rw [this]
            exact hnd)
          (by
            rw [List.length_append]
            simp only [List.length_cons] at hlen
            simp only [List.length_singleton]
            omega)
          (by
            rw [tsList_append_single]
            exact chain'_lt_append_single hch hall)
          (by
            intro x hx
            rw [tsList_append_single, List.mem_append, List.mem_singleton] at hx
            rcases hx with hx | hx
            · exact Nat.lt_succ_of_lt (hall x hx)
            · simp only [] at hx
              omega)
        rw [hres, keysList_append]
        have hsingle : keysList [(k, CacheEntry.mk d t)] = [k] := rfl
        rw [hsingle, List.append_assoc, hr]
        rfl

/-- Deterministic stand-in for the uuid supply (`uuid.uuid4()` truncated):
the n-th synthesized identifier. -/
def genDemo : Nat → String := fun n => "u" ++ toString n

theorem genDemo_ne_empty (n : Nat) : genDemo n ≠ "" := by
  intro h
  have hlen := congrArg String.length h
  rw [genDemo] at hlen
  rw [String.length_append] at hlen
  have h1 : ("u" : String).length = 1 := rfl
  have h0 : ("" : String).length = 0 := rfl
  omega

/-- A well-formed modern-schema archive: one sheet, a root topic with an id. -/
def xfValid : XFile :=
  { present := true, path := "t.xmind", mtime := 7, size := 5,
    zipOpenable := true, zipTestOk := true, entries := ["content.json"],
    contentParse := some (.obj [("sheets", .arr [.obj [("id", .str "s1"),
      ("topic", .obj [("id", .str "r"), ("title", .str "T")])]])]) }

/-- A well-formed modern-schema archive whose topic has no `id` key. -/
def xfNoId : XFile :=
  { xfValid with contentParse := some (.obj [("sheets", .arr [.obj [("id", .str "s1"),
      ("topic", .obj [("title", .str "A")])]])]) }

/-- A path that does not exist. -/
def xfMissing : XFile := { xfValid with present := false }

/-- A zero-byte file. -/
def xfZero : XFile := { xfValid with size := 0 }

/-- A valid archive whose payload root is the empty object (no `sheets`). -/
def xfObjRoot : XFile := { xfValid with contentParse := some (.obj []) }

/-- A valid archive whose payload root is the empty array. -/
def xfArrRoot : XFile := { xfValid with contentParse := some (.arr []) }

/-- A valid archive whose payload is not valid JSON. -/
def xfBadJson : XFile := { xfValid with contentParse := none }

/-- C3, counterexample. The claim says the five validation failures each carry
their own distinct machine-readable error kind; in the code
`validate_xmind_file` catches every internal exception and returns a bare
`False`, which `load` wraps uniformly, so a nonexistent path and a zero-size
file surface with the SAME tag `FILE_VALIDATION`. -/
theorem C3_counterexample :
    (XmindFileLoader.load genDemo 100 xfMissing [] 0 0 none).res
        = .err .FILE_VALIDATION ∧
    (XmindFileLoader.load genDemo 100 xfZero [] 0 0 none).res
        = .err .FILE_VALIDATION := ⟨rfl, rfl⟩

/-- C3, amended. Every archive-level validation defect (nonexistent path,
wrong extension, zero size, unopenable archive, corrupt checksum, missing
`content.json`) makes `validate_xmind_file` return `False`, and any such
failure is reported with the single tag `FILE_VALIDATION`; a payload whose
JSON root is `{}` or `[]` (or unparsable JSON) instead fails with
`LOAD_FAILED`, which is distinct from `FILE_VALIDATION` but is the generic
catch-all kind, not a dedicated schema tag. -/
theorem C3_amended (gen : Nat → String) (cap : Nat) (f : XFile) (cache : Cache)
    (clock ctr : Nat) (content0 : Option (List Json))
    (hmiss : get_cached_data cache f = none) :
    (f.present = false → validate_xmind_file f = false) ∧
    (strEndsWith (lowerStr f.path) ".xmind" = false → validate_xmind_file f = false) ∧
    (f.size = 0 → validate_xmind_file f = false) ∧
    (f.zipOpenable = false → validate_xmind_file f = false) ∧
    (f.zipTestOk = false → validate_xmind_file f = false) ∧
    (f.entries.contains "content.json" = false → validate_xmind_file f = false) ∧
    (validate_xmind_file f = false →
      (XmindFileLoader.load gen cap f cache clock ctr content0).res
        = .err .FILE_VALIDATION) ∧
    (validate_xmind_file f = true → f.contentParse = none →
      (XmindFileLoader.load gen cap f cache clock ctr content0).res
        = .err .LOAD_FAILED) ∧
    (∀ cj, validate_xmind_file f = true → f.contentParse = some cj →
      validate_content_structure cj = false →
      (XmindFileLoader.load gen cap f cache clock ctr content0).res
        = .err .LOAD_FAILED) ∧
    validate_content_structure (.obj []) = false ∧
    validate_content_structure (.arr []) = false ∧
    LoadTag.FILE_VALIDATION ≠ LoadTag.LOAD_FAILED := by
  refine ⟨?_, ?_, ?_, ?_, ?_, ?_, ?_, ?_, ?_, rfl, rfl, by decide⟩
  · intro h; simp [validate_xmind_file, h]
  · intro h; simp [validate_xmind_file, h]
  · intro h; simp [validate_xmind_file, h]
  · intro h; simp [validate_xmind_file, h]
  · intro h; simp [validate_xmind_file, h]
  · intro h; simp only [validate_xmind_file, h, Bool.and_false]
  · intro hv
    simp [XmindFileLoader.load, hmiss, hv]
  · intro hv hcp
    simp [XmindFileLoader.load, hmiss, hcp, hv]
  · intro cj hv hcp hsv
    simp [XmindFileLoader.load, hmiss, hcp, hv, hsv]

/-- C3, witness for the amended theorem at concrete inputs. -/
theorem C3_amended_witness :
    validate_xmind_file xfMissing = false ∧
    validate_xmind_file xfZero = false ∧
    (XmindFileLoader.load genDemo 100 xfBadJson [] 0 0 none).res
        = .err .LOAD_FAILED ∧
    (XmindFileLoader.load genDemo 100 xfObjRoot [] 0 0 none).res
        = .err .LOAD_FAILED ∧
    (XmindFileLoader.load genDemo 100 xfArrRoot [] 0 0 none).res
        = .err .LOAD_FAILED :=
  ⟨(C3_amended genDemo 100 xfMissing [] 0 0 none rfl).1 rfl,
   (C3_amended genDemo 100 xfZero [] 0 0 none rfl).2.2.1 rfl,
   (C3_amended genDemo 100 xfBadJson [] 0 0 none rfl).2.2.2.2.2.2.2.1 rfl rfl,
   (C3_amended genDemo 100 xfObjRoot [] 0 0 none rfl).2.2.2.2.2.2.2.2.1
     (.obj []) rfl rfl rfl,
   (C3_amended genDemo 100 xfArrRoot [] 0 0 none rfl).2.2.2.2.2.2.2.2.1
     (.arr []) rfl rfl rfl⟩

/-- C4 (confirmed). On every path of `load` — cache hit, validation failure,
parse failure, schema failure, conversion failure, success — the `temp_dir`
handle is `None` when the call returns or raises, and on every path that
created the temporary extraction directory the explicit `_cleanup` call ran
on that very path (both `except` arms and the success path call it); cleanup
is not left to the `__del__` finalizer. -/
theorem C4_temp_cleanup (gen : Nat → String) (cap : Nat) (f : XFile)
    (cache : Cache) (clock ctr : Nat) (content0 : Option (List Json)) :
    (XmindFileLoader.load gen cap f cache clock ctr content0).tempAfter = none ∧
    ((XmindFileLoader.load gen cap f cache clock ctr content0).tempCreated = true →
      (XmindFileLoader.load gen cap f cache clock ctr content0).cleanupRan = true) := by
  cases hg : get_cached_data cache f with
  | some e => constructor <;> simp [XmindFileLoader.load, hg]
  | none =>
    by_cases hv : validate_xmind_file f = false
    · constructor <;> simp [XmindFileLoader.load, hg, hv]
    · cases hcp : f.contentParse with
      | none => constructor <;> simp [XmindFileLoader.load, hg, hv, hcp]
      | some cj =>
        by_cases hs : validate_content_structure cj = false
        · constructor <;> simp [XmindFileLoader.load, hg, hv, hcp, hs]
        · cases hcv : convert_to_xmind_format gen cj ctr with
          | none =>
            constructor <;> simp [XmindFileLoader.load, hg, hv, hcp, hs, hcv]
          | some r =>
            obtain ⟨d, ctr'⟩ := r
            constructor <;> simp [XmindFileLoader.load, hg, hv, hcp, hs, hcv]

/-- C4, witness: a successful load created the directory and cleaned it. -/
theorem C4_witness :
    (XmindFileLoader.load genDemo 100 xfValid [] 0 0 none).tempAfter = none ∧
    (XmindFileLoader.load genDemo 100 xfValid [] 0 0 none).cleanupRan = true :=
  ⟨(C4_temp_cleanup genDemo 100 xfValid [] 0 0 none).1,
   (C4_temp_cleanup genDemo 100 xfValid [] 0 0 none).2 rfl⟩

/-- C10 (confirmed). `getData` on a loader that has not loaded yet returns
`[]` (never `None`), a failed `load` leaves `content_data` unset so `getData`
still returns `[]`, and the workbook wrapper reports length 0 for such
empty/absent data. -/
theorem C10_getdata_empty :
    XmindFileLoader.getData none = [] ∧
    XmindWorkbookWrapper.len [] = 0 ∧
    (∀ (gen : Nat → String) (cap : Nat) (f : XFile) (cache : Cache)
        (clock ctr : Nat) (tag : LoadTag),
      (XmindFileLoader.load gen cap f cache clock ctr none).res = .err tag →
      XmindFileLoader.getData
          (XmindFileLoader.load gen cap f cache clock ctr none).content = [] ∧
      XmindWorkbookWrapper.len (XmindFileLoader.getData
          (XmindFileLoader.load gen cap f cache clock ctr none).content) = 0) := by
  refine ⟨rfl, rfl, ?_⟩
  intro gen cap f cache clock ctr tag hres
  cases hg : get_cached_data cache f with
  | some e =>
    simp [XmindFileLoader.load, hg] at hres
  | none =>
    by_cases hv : validate_xmind_file f = false
    · constructor <;>
        simp [XmindFileLoader.load, hg, hv, XmindFileLoader.getData,
          XmindWorkbookWrapper.len]
    · cases hcp : f.contentParse with
      | none =>
        constructor <;>
          simp [XmindFileLoader.load, hg, hv, hcp, XmindFileLoader.getData,
            XmindWorkbookWrapper.len]
      | some cj =>
        by_cases hs : validate_content_structure cj = false
        · constructor <;>
            simp [XmindFileLoader.load, hg, hv, hcp, hs, XmindFileLoader.getData,
              XmindWorkbookWrapper.len]
        · cases hcv : convert_to_xmind_format gen cj ctr with
          | none =>
            constructor <;>
              simp [XmindFileLoader.load, hg, hv, hcp, hs, hcv,
                XmindFileLoader.getData, XmindWorkbookWrapper.len]
          | some r =>
            obtain ⟨d, ctr'⟩ := r
            simp [XmindFileLoader.load, hg, hv, hcp, hs, hcv] at hres

/-- C10, witness at a concrete failing load. -/
theorem C10_witness :
    XmindFileLoader.getData
        (XmindFileLoader.load genDemo 100 xfMissing [] 0 0 none).content = [] ∧
    XmindWorkbookWrapper.len (XmindFileLoader.getData
        (XmindFileLoader.load genDemo 100 xfMissing [] 0 0 none).content) = 0 :=
  C10_getdata_empty.2.2 genDemo 100 xfMissing [] 0 0 .FILE_VALIDATION rfl

/-- Two consecutive `load` calls on the same unchanged file, the second seeing
the cache, clock, uuid counter and loader state the first one left behind. -/
def XmindFileLoader.loadTwice (gen : Nat → String) (cap : Nat) (f : XFile)
    (cache : Cache) (clock ctr : Nat) (content0 : Option (List Json)) : LoadOutput :=
  let o1 := XmindFileLoader.load gen cap f cache clock ctr content0
  XmindFileLoader.load gen cap f o1.cache o1.clock o1.ctr o1.content

/-- C6 (confirmed). If a `load` of `f` succeeds with document `d`, a second
`load` of the unchanged `f` (same path, mtime, size — hence the same
fingerprint key) is answered from the cache: it returns the structurally
identical `d`, reports a cache hit, and performs no validation or
extraction (no temporary directory is created). -/
theorem C6_load_roundtrip (gen : Nat → String) (cap : Nat) (f : XFile)
    (cache : Cache) (clock ctr : Nat) (content0 : Option (List Json))
    (d : List Json)
    (h : (XmindFileLoader.load gen cap f cache clock ctr content0).res = LoadRes.ok d) :
    (XmindFileLoader.loadTwice gen cap f cache clock ctr content0).res = LoadRes.ok d ∧
    (XmindFileLoader.loadTwice gen cap f cache clock ctr content0).cacheHit = true ∧
    (XmindFileLoader.loadTwice gen cap f cache clock ctr content0).tempCreated = false := by
  unfold XmindFileLoader.loadTwice
  cases hg : get_cached_data cache f with
  | some e =>
    have he : e.data = d := by
      simp [XmindFileLoader.load, hg] at h
      exact h
    refine ⟨?_, ?_, ?_⟩ <;> simp [XmindFileLoader.load, hg, he]
  | none =>
    by_cases hv : validate_xmind_file f = false
    · simp [XmindFileLoader.load, hg, hv] at h
    · cases hcp : f.contentParse with
      | none => simp [XmindFileLoader.load, hg, hv, hcp] at h
      | some cj =>
        by_cases hs : validate_content_structure cj = false
        · simp [XmindFileLoader.load, hg, hv, hcp, hs] at h
        · cases hcv : convert_to_xmind_format gen cj ctr with
          | none => simp [XmindFileLoader.load, hg, hv, hcp, hs, hcv] at h
          | some r =>
            obtain ⟨d', ctr'⟩ := r
            have hd : d' = d := by
              simp [XmindFileLoader.load, hg, hv, hcp, hs, hcv] at h
              exact h
            subst hd
            have hlk : get_cached_data
                (set_cached_data cap cache (get_file_cache_key f) d' clock) f
                = some ⟨d', clock⟩ := by
              unfold get_cached_data set_cached_data
              exact lookup_upsert_self _ _ _
            refine ⟨?_, ?_, ?_⟩ <;>
              simp [XmindFileLoader.load, hg, hv, hcp, hs, hcv, hlk]

/-- The document the valid fixture archive normalizes to. -/
def docValid : List Json :=
  [.obj [("id", .str "s1"), ("title", .null),
    ("topic", .obj [("id", .str "r"), ("link", .null), ("title", .str "T"),
      ("note", .null), ("label", .null), ("comment", .null),
      ("markers", .arr []), ("topics", .arr [])])]]

/-- C6, witness: the second load of the unchanged fixture is a cache hit with
the same document and no extraction. -/
theorem C6_witness :
    (XmindFileLoader.loadTwice genDemo 100 xfValid [] 0 0 none).res
        = LoadRes.ok docValid ∧
    (XmindFileLoader.loadTwice genDemo 100 xfValid [] 0 0 none).cacheHit = true ∧
    (XmindFileLoader.loadTwice genDemo 100 xfValid [] 0 0 none).tempCreated = false :=
  C6_load_roundtrip genDemo 100 xfValid [] 0 0 none docValid rfl

theorem upsert_length (c : Cache) (k : String) (e : CacheEntry) :
    (upsert c k e).length = c.length ∨ (upsert c k e).length = c.length + 1 := by
  induction c with
  | nil => right; rfl
  | cons hd rest ih =>
    obtain ⟨k0, e0⟩ := hd
    by_cases hk : k0 = k
    · left; simp [upsert, hk]
    · rw [upsert, if_neg hk]
      rcases ih with hu | hu
      · left; simp [hu]
      · right; simp [hu]

theorem eraseKey_length {c : Cache} {k : String} (h : k ∈ keysList c) :
    (eraseKey c k).length + 1 = c.length := by
  induction c with
  | nil => simp [keysList] at h
  | cons hd rest ih =>
    obtain ⟨k0, e0⟩ := hd
    by_cases hk : k0 = k
    · simp [eraseKey, hk]
    · rw [eraseKey, if_neg hk]
      simp only [keysList, List.map_cons, List.mem_cons] at h
      rcases h with h | h
      · exact absurd h.symm hk
      · have := ih h
        simp only [List.length_cons]
        omega

theorem oldestEntry_eq_none {c : Cache} (h : oldestEntry c = none) : c = [] := by
  cases c with
  | nil => rfl
  | cons hd rest =>
    obtain ⟨k, e⟩ := hd
    rw [oldestEntry] at h
    cases hr : oldestEntry rest with
    | none => rw [hr] at h; exact Option.noConfusion h
    | some ke' =>
      obtain ⟨k1, e1⟩ := ke'
      rw [hr] at h
      dsimp only at h
      by_cases hlt : e1.timestamp < e.timestamp
      · rw [if_pos hlt] at h; exact Option.noConfusion h
      · rw [if_neg hlt] at h; exact Option.noConfusion h

theorem set_cached_data_length_le (cap : Nat) (c : Cache) (k : String)
    (d : List Json) (t : Nat) (hcap : 1 ≤ cap) (hc : c.length ≤ cap) :
    (set_cached_data cap c k d t).length ≤ cap := by
  unfold set_cached_data
  by_cases hfull : cap ≤ c.length
  · have hlen : c.length = cap := le_antisymm hc hfull
    rw [if_pos hfull]
    cases hold : oldestEntry c with
    | none =>
      have := oldestEntry_eq_none hold
      subst this
      simp at hlen
      omega
    | some ke =>
      obtain ⟨k1, e1⟩ := ke
      have hk1 : k1 ∈ keysList c :=
        List.mem_map_of_mem (fun x => x.1) (oldestEntry_mem hold)
      have herase := eraseKey_length hk1
      dsimp only
      rcases upsert_length (eraseKey c k1) k ⟨d, t⟩ with hu | hu <;> omega
  · rw [if_neg hfull]
    dsimp only
    rcases upsert_length c k ⟨d, t⟩ with hu | hu <;> omega

theorem runOps_length_le (cap : Nat) (hcap : 1 ≤ cap) :
    ∀ (ops : List CacheOp) (c : Cache) (t : Nat),
      c.length ≤ cap → (runOps cap ops c t).length ≤ cap := by
  intro ops
  induction ops with
  | nil => intro c t hc; exact hc
  | cons op rest ih =>
    intro c t hc
    cases op with
    | ins k d =>
      rw [runOps]
      exact ih _ _ (set_cached_data_length_le cap c k d t hcap hc)
    | qry k =>
      rw [runOps]
      exact ih _ _ hc

theorem keysList_length (c : Cache) : (keysList c).length = c.length := by
  simp [keysList]

/-- C5 (confirmed). With capacity `N ≥ 1` (the source fixes `N = 100`):
running any interleaving of lookups and `N + 1` insertions of distinct fresh
fingerprints against an initially empty cache leaves exactly `N` entries with
the earliest-inserted fingerprint absent and every later one present —
lookups in between do not protect it, because `_get_cached_data` is a plain
`dict.get` that never modifies the cache or any `insertedAt`; a single
insertion into a full cache (strictly increasing timestamps, fresh key)
evicts exactly the entry with the smallest timestamp, which under strictly
increasing timestamps is the first-inserted (head) entry; and the cache
length never exceeds the capacity. -/
theorem C5_cache_eviction (cap : Nat) (ops : List CacheOp) (k0 : String)
    (ks : List String) (hcap : 1 ≤ cap) (hins : insKeys ops = k0 :: ks)
    (hnd : (k0 :: ks).Nodup) (hlen : ks.length = cap) :
    (runOps cap ops [] 0).length = cap ∧
    (runOps cap ops [] 0).lookup k0 = none ∧
    (∀ k ∈ ks, ((runOps cap ops [] 0).lookup k).isSome) ∧
    (∀ (c : Cache) (t : Nat) (q : String) (rest : List CacheOp),
      runOps cap (CacheOp.qry q :: rest) c t = runOps cap rest c (t + 1)) ∧
    (∀ (c : Cache) (k : String) (d : List Json) (t : Nat),
      c.length = cap → List.Chain' (fun a b => a < b) (tsList c) →
      c.lookup k = none →
      set_cached_data cap c k d t = c.tail ++ [(k, ⟨d, t⟩)]) ∧
    (∀ c : Cache, List.Chain' (fun a b => a < b) (tsList c) →
      oldestEntry c = c.head?) ∧
    (∀ (ops' : List CacheOp) (c : Cache) (t : Nat),
      c.length ≤ cap → (runOps cap ops' c t).length ≤ cap) ∧
    cacheMaxSize = 100 := by
  have hkeys := runOps_overflow cap ops [] 0 hcap
    (by rw [hins]; exact List.cons_ne_nil k0 ks)
    (by rw [hins]; simpa [keysList] using hnd)
    (by rw [hins]; simp [List.length_cons]; omega)
    (by simp [tsList])
    (by simp [tsList])
  rw [hins] at hkeys
  have hkeys' : keysList (runOps cap ops [] 0) = ks := by
    simpa [keysList] using hkeys
  refine ⟨?_, ?_, ?_, fun c t q rest => rfl, ?_, ?_, ?_, rfl⟩
  · have := keysList_length (runOps cap ops [] 0)
    rw [hkeys'] at this
    omega
  · rw [lookup_eq_none_iff_keys, hkeys']
    have := hnd
    rw [List.nodup_cons] at this
    exact this.1
  · intro k hk
    rw [Option.isSome_iff_ne_none]
    intro hnone
    rw [lookup_eq_none_iff_keys, hkeys'] at hnone
    exact hnone hk
  · intro c k d t hclen hch hfresh
    exact set_cached_data_at_capacity cap c k d t hcap hclen hch hfresh
  · intro c hch
    cases c with
    | nil => rfl
    | cons hd rest =>
      obtain ⟨k, e⟩ := hd
      rw [oldestEntry_head k e rest hch]
      rfl
  · exact fun ops' c t hc => runOps_length_le cap hcap ops' c t hc

/-- C5, witness: capacity 2, three distinct insertions with an interleaved
lookup of the first key; the first key is evicted anyway. -/
theorem C5_witness :
    (runOps 2 [CacheOp.ins "a" [], CacheOp.ins "b" [], CacheOp.qry "a",
      CacheOp.ins "c" []] [] 0).length = 2 ∧
    (runOps 2 [CacheOp.ins "a" [], CacheOp.ins "b" [], CacheOp.qry "a",
      CacheOp.ins "c" []] [] 0).lookup "a" = none ∧
    ((runOps 2 [CacheOp.ins "a" [], CacheOp.ins "b" [], CacheOp.qry "a",
      CacheOp.ins "c" []] [] 0).lookup "b").isSome := by
  have h := C5_cache_eviction 2
    [CacheOp.ins "a" [], CacheOp.ins "b" [], CacheOp.qry "a", CacheOp.ins "c" []]
    "a" ["b", "c"] (by decide) rfl (by decide) rfl
  exact ⟨h.1, h.2.1, h.2.2.1 "b" (by decide)⟩

theorem mkTopicOut_id (j : Json) (outs : List Json) :
    (mkTopicOut j outs).getN "id" = j.getD "id" (.str "") := rfl

theorem mkTopicOut_topics (j : Json) (outs : List Json) :
    (mkTopicOut j outs).getN "topics" = .arr (legacyChildren j ++ outs) := rfl

theorem mkTopicOut_markers (j : Json) (outs : List Json) :
    (mkTopicOut j outs).getN "markers"
      = .arr ((normalizeMarkers (j.getD "markers" (.arr []))).map .str) := rfl

/-- A raw legacy child carrying only a title. -/
def rawA : Json := .obj [("title", .str "A")]

/-- A raw attached child carrying only a title. -/
def rawC : Json := .obj [("title", .str "C")]

/-- A raw topic carrying both a legacy inline child list and a modern
attached-children list. -/
def rawBoth : Json :=
  .obj [("topics", .arr [rawA]), ("children", .obj [("attached", .arr [rawC])])]

/-- The canonical conversion of `rawA`. -/
def convA : Json :=
  .obj [("id", .str ""), ("link", .null), ("title", .str "A"), ("note", .null),
        ("label", .null), ("comment", .null), ("markers", .arr []), ("topics", .arr [])]

/-- The canonical conversion of `rawC`. -/
def convC : Json :=
  .obj [("id", .str ""), ("link", .null), ("title", .str "C"), ("note", .null),
        ("label", .null), ("comment", .null), ("markers", .arr []), ("topics", .arr [])]

/-- The output `_convert_topic` produces for `rawBoth`: the raw legacy child
`rawA` is passed through unconverted, only the attached child is normalized. -/
def outBoth : Json :=
  .obj [("id", .str ""), ("link", .null), ("title", .null), ("note", .null),
        ("label", .null), ("comment", .null), ("markers", .arr []),
        ("topics", .arr [rawA, convC])]

/-- The value of `rawBoth` after `_convert_topic` returned: its own `topics`
list has been mutated, gaining the converted attached child. -/
def postBoth : Json :=
  .obj [("topics", .arr [rawA, convC]),
        ("children", .obj [("attached", .arr [rawC])])]

/-- The document the `xfNoId` fixture loads to: its topic id is `""`. -/
def docNoId : List Json :=
  [.obj [("id", .str "s1"), ("title", .null),
    ("topic", .obj [("id", .str ""), ("link", .null), ("title", .str "A"),
      ("note", .null), ("label", .null), ("comment", .null),
      ("markers", .arr []), ("topics", .arr [])])]]

/-- C1, counterexample. A valid modern archive whose (non-empty) raw topic
merely omits the `id` key loads successfully, but the returned `Topic.id` is
the EMPTY string — `topic_data.get('id', '')` — no fresh identifier is
synthesized; synthesis happens only when the whole raw topic is absent/falsy. -/
theorem C1_counterexample :
    (XmindFileLoader.load genDemo 100 xfNoId [] 0 0 none).res = LoadRes.ok docNoId ∧
    ((docNoId.headD .null).getN "topic").getN "id" = .str "" := ⟨rfl, rfl⟩

/-- C1, amended. A raw topic that is absent/falsy is replaced by a synthesized
minimal Topic whose id is the freshly generated (non-empty) identifier; but a
truthy raw topic that omits the `id` key gets the empty string as id, and a
present `id` value is passed through unchanged, whatever it is. -/
theorem C1_amended (gen : Nat → String) (j : Json) (ctr : Nat)
    (hgen : ∀ n, gen n ≠ "") :
    (j.truthy = false →
      convert_topic gen j ctr = some (emptyTopic (gen ctr), j, ctr + 1) ∧
      (emptyTopic (gen ctr)).getN "id" = .str (gen ctr) ∧ gen ctr ≠ "") ∧
    (∀ fs, j = .obj fs → j.truthy = true → j.get? "id" = none →
      ∀ o p c', convert_topic gen j ctr = some (o, p, c') →
        o.getN "id" = .str "") ∧
    (∀ fs v, j = .obj fs → j.truthy = true → j.get? "id" = some v →
      ∀ o p c', convert_topic gen j ctr = some (o, p, c') →
        o.getN "id" = v) := by
  refine ⟨?_, ?_, ?_⟩
  · intro hf
    exact ⟨convert_topic_falsy gen j ctr hf, rfl, hgen ctr⟩
  · intro fs hj ht hid o p c' hconv
    subst hj
    rw [convert_topic_obj gen fs ctr ht] at hconv
    cases hcc : convert_children gen (childrenAttached (.obj fs)) ctr with
    | none => rw [hcc] at hconv; exact Option.noConfusion hconv
    | some r =>
      obtain ⟨pairs, c''⟩ := r
      rw [hcc] at hconv
      dsimp only at hconv
      simp only [Option.some.injEq, Prod.mk.injEq] at hconv
      obtain ⟨ho, hp, hc⟩ := hconv
      subst ho
      rw [mkTopicOut_id]
      unfold Json.getD
      rw [hid]
      rfl
  · intro fs v hj ht hid o p c' hconv
    subst hj
    rw [convert_topic_obj gen fs ctr ht] at hconv
    cases hcc : convert_children gen (childrenAttached (.obj fs)) ctr with
    | none => rw [hcc] at hconv; exact Option.noConfusion hconv
    | some r =>
      obtain ⟨pairs, c''⟩ := r
      rw [hcc] at hconv
      dsimp only at hconv
      simp only [Option.some.injEq, Prod.mk.injEq] at hconv
      obtain ⟨ho, hp, hc⟩ := hconv
      subst ho
      rw [mkTopicOut_id]
      unfold Json.getD
      rw [hid]
      rfl

/-- C1, witness for the amended theorem: a truthy topic without `id` yields
id `""`; a falsy topic yields the synthesized empty topic. -/
theorem C1_witness :
    convA.getN "id" = Json.str "" ∧
    convert_topic genDemo Json.null 0 = some (emptyTopic (genDemo 0), Json.null, 1) := by
  have h1 := (C1_amended genDemo rawA 0 genDemo_ne_empty).2.1
    [("title", .str "A")] rfl rfl rfl convA rawA 0 rfl
  have h2 := ((C1_amended genDemo Json.null 0 genDemo_ne_empty).1 rfl).1
  exact ⟨h1, h2⟩

/-- C2, counterexample. Converting `rawBoth` yields children
`[rawA, convC]`: the legacy inline child `rawA` appears RAW (it still has only
its `title` key — converting it would produce `convA`, a different value with
all canonical keys), so the legacy part of the merged list is NOT recursively
normalized; only the attached child was normalized to `convC`. -/
theorem C2_counterexample :
    convert_topic genDemo rawBoth 0 = some (outBoth, postBoth, 0) ∧
    outBoth.getN "topics" = .arr [rawA, convC] ∧
    rawA.get? "id" = none ∧
    convert_topic genDemo rawA 0 = some (convA, rawA, 0) ∧
    convA ≠ rawA := by
  refine ⟨rfl, rfl, rfl, rfl, ?_⟩
  intro h
  exact Json.noConfusion (show Json.str "" = Json.null from
    congrArg (fun x => x.getN "id") h)

/-- C2, amended. For a truthy raw topic whose own `topics` value is the list
`l`, the normalized children are exactly `l ++ outs` — the raw legacy elements
first (passed through unconverted), then the attached children, each
recursively normalized, in source order with no de-duplication; the attached
children are converted left to right through `convert_topic` itself. -/
theorem C2_amended (gen : Nat → String) (fs : List (String × Json))
    (l : List Json) (ctr : Nat) (ht : (Json.obj fs).truthy = true)
    (hl : (Json.obj fs).getN "topics" = .arr l) :
    (∀ pairs c',
      convert_children gen (childrenAttached (.obj fs)) ctr = some (pairs, c') →
      ∀ o p c'', convert_topic gen (.obj fs) ctr = some (o, p, c'') →
        o.getN "topics" = .arr (l ++ pairs.map Prod.fst)) ∧
    (∀ ctr0 : Nat, convert_children gen ([] : List Json) ctr0 = some ([], ctr0)) ∧
    (∀ (x : Json) (xs : List Json) (ctr0 : Nat),
      convert_children gen (x :: xs) ctr0 =
        match convert_topic gen x ctr0 with
        | none => none
        | some (o, p, c') =>
          match convert_children gen xs c' with
          | none => none
          | some (rest, c'') => some ((o, p) :: rest, c'')) := by
  refine ⟨?_, convert_children_nil gen, convert_children_cons gen⟩
  intro pairs c' hcc o p c'' hconv
  rw [convert_topic_obj gen fs ctr ht, hcc] at hconv
  dsimp only at hconv
  simp only [Option.some.injEq, Prod.mk.injEq] at hconv
  obtain ⟨ho, hp, hc⟩ := hconv
  subst ho
  rw [mkTopicOut_topics]
  have hleg : legacyChildren (.obj fs) = l := by
    unfold legacyChildren
    rw [hl]
  rw [hleg]

/-- C2, witness: the amended merge law at the concrete two-list topic. -/
theorem C2_witness : outBoth.getN "topics" = .arr ([rawA] ++ [convC]) :=
  (C2_amended genDemo
      [("topics", .arr [rawA]), ("children", .obj [("attached", .arr [rawC])])]
      [rawA] 0 rfl rfl).1 [(convC, rawC)] 0 rfl outBoth postBoth 0 rfl

/-- C8 (confirmed). Marker normalization: a non-list `markers` value yields
`[]`; a list is filtered-mapped in order, so surviving entries keep their
source order; plain string entries are kept as-is; object entries contribute
their `markerId` when it is a (truthy) string, else their `id` when that is a
string; all other entries (numbers, booleans, null, nested lists, objects
without a usable identifier) are dropped silently; and the converted topic's
`markers` field is exactly the string list this normalization produces. -/
theorem C8_markers (gen : Nat → String) :
    (∀ ms, normalizeMarkers (.arr ms) = ms.filterMap markerOf) ∧
    (∀ s, markerOf (.str s) = some s) ∧
    (∀ fields s, (Json.obj fields).getN "markerId" = .str s → s ≠ "" →
      markerOf (.obj fields) = some s) ∧
    (∀ fields s, ((Json.obj fields).getN "markerId").truthy = false →
      (Json.obj fields).getN "id" = .str s → markerOf (.obj fields) = some s) ∧
    (markerOf .null = none) ∧
    (∀ b, markerOf (.bool b) = none) ∧
    (∀ n, markerOf (.num n) = none) ∧
    (∀ li, markerOf (.arr li) = none) ∧
    (∀ j, (∀ li, j ≠ .arr li) → normalizeMarkers j = []) ∧
    (∀ fs ctr o p c', (Json.obj fs).truthy = true →
      convert_topic gen (.obj fs) ctr = some (o, p, c') →
      o.getN "markers"
        = .arr ((normalizeMarkers ((Json.obj fs).getD "markers" (.arr []))).map .str)) := by
  refine ⟨fun ms => rfl, fun s => rfl, ?_, ?_, rfl, fun b => rfl, fun n => rfl,
    fun li => rfl, ?_, ?_⟩
  · intro fields s hmid hne
    have htr : (Json.str s).truthy = true := by
      simp [Json.truthy, hne]
    simp [markerOf, hmid, htr]
  · intro fields s hmid hid
    simp [markerOf, hmid, hid]
  · intro j hj
    cases j with
    | arr li => exact absurd rfl (hj li)
    | null => rfl
    | bool b => rfl
    | num n => rfl
    | str s => rfl
    | obj fs => rfl
  · intro fs ctr o p c' ht hconv
    rw [convert_topic_obj gen fs ctr ht] at hconv
    cases hcc : convert_children gen (childrenAttached (.obj fs)) ctr with
    | none => rw [hcc] at hconv; exact Option.noConfusion hconv
    | some r =>
      obtain ⟨pairs, c''⟩ := r
      rw [hcc] at hconv
      dsimp only at hconv
      simp only [Option.some.injEq, Prod.mk.injEq] at hconv
      obtain ⟨ho, hp, hc⟩ := hconv
      subst ho
      rw [mkTopicOut_markers]

/-- C8, witness: the mixed marker list keeps the strings and the extracted
identifiers in source order and drops the malformed entries. -/
theorem C8_witness :
    normalizeMarkers (.arr [.str "m1",
        .obj [("markerId", .str "m2"), ("id", .str "x")],
        .obj [("id", .str "m3")], .num 5,
        .obj [("markerId", .num 3), ("id", .str "zz")]])
      = ["m1", "m2", "m3"] ∧
    markerOf (.str "m1") = some "m1" ∧
    markerOf (.obj [("markerId", .str "m2"), ("id", .str "x")]) = some "m2" ∧
    markerOf (.obj [("id", .str "m3")]) = some "m3" ∧
    markerOf (.num 5) = none := by
  refine ⟨rfl, (C8_markers genDemo).2.1 "m1", ?_, ?_, (C8_markers genDemo).2.2.2.2.2.2.1 5⟩
  · exact (C8_markers genDemo).2.2.1 [("markerId", .str "m2"), ("id", .str "x")]
      "m2" rfl (by decide)
  · exact (C8_markers genDemo).2.2.2.1 [("id", .str "m3")] "m3" rfl rfl

theorem getN_obj (fs : List (String × Json)) (k : String) :
    (Json.obj fs).getN k = (fs.lookup k).getD .null := rfl

theorem postState_topics {fs : List (String × Json)} {l : List Json}
    (hl : (Json.obj fs).getN "topics" = Json.arr l) (outs posts : List Json) :
    (postState (.obj fs) outs posts).getN "topics" = .arr (l ++ outs) := by
  have hleg : legacyChildren (.obj fs) = l := by unfold legacyChildren; rw [hl]
  have hhas : hasLegacyList (.obj fs) = true := by unfold hasLegacyList; rw [hl]
  have hget : fs.lookup "topics" = some (.arr l) := getN_arr_get? hl
  have hsome : (fs.lookup "topics").isSome := by rw [hget]; rfl
  have hset : (objSet fs "topics" (.arr (l ++ outs))).lookup "topics"
      = some (.arr (l ++ outs)) := lookup_objSet_self _ hsome
  cases hc : (Json.obj fs).getN "children" with
  | obj cfs =>
    cases ha : (Json.obj cfs).getN "attached" with
    | arr a =>
      simp only [postState, hhas, if_true, hc, ha, hleg]
      rw [getN_obj,
        lookup_objSet_ne _ (by decide : ("topics" : String) ≠ "children"), hset]
      rfl
    | null =>
      simp only [postState, hhas, if_true, hc, ha, hleg]
      rw [getN_obj, hset]
      rfl
    | bool b =>
      simp only [postState, hhas, if_true, hc, ha, hleg]
      rw [getN_obj, hset]
      rfl
    | num n =>
      simp only [postState, hhas, if_true, hc, ha, hleg]
      rw [getN_obj, hset]
      rfl
    | str s =>
      simp only [postState, hhas, if_true, hc, ha, hleg]
      rw [getN_obj, hset]
      rfl
    | obj o =>
      simp only [postState, hhas, if_true, hc, ha, hleg]
      rw [getN_obj, hset]
      rfl
  | null =>
    simp only [postState, hhas, if_true, hc, hleg]
    rw [getN_obj, hset]
    rfl
  | bool b =>
    simp only [postState, hhas, if_true, hc, hleg]
    rw [getN_obj, hset]
    rfl
  | num n =>
    simp only [postState, hhas, if_true, hc, hleg]
    rw [getN_obj, hset]
    rfl
  | str s =>
    simp only [postState, hhas, if_true, hc, hleg]
    rw [getN_obj, hset]
    rfl
  | arr a =>
    simp only [postState, hhas, if_true, hc, hleg]
    rw [getN_obj, hset]
    rfl

/-- C9, counterexample. The normalizer is NOT mutation-free: converting
`rawBoth` leaves the raw input with a `topics` list of length 2 (the converted
attached child was appended in place to the raw topic's own child list), so
the post-call value of the input differs from the original. -/
theorem C9_counterexample :
    convert_topic genDemo rawBoth 0 = some (outBoth, postBoth, 0) ∧
    postBoth ≠ rawBoth := by
  refine ⟨rfl, ?_⟩
  intro h
  exact absurd (show (2 : Nat) = 1 from
    congrArg (fun x => (legacyChildren x).length) h) (by decide)

/-- C9, amended. The normalizer performs no I/O, and it leaves a falsy raw
topic, or a truthy one without a legacy `topics` list and without a `children`
dict, unmodified; but when the raw topic's own `topics` value is a list and
attached children exist, the call appends the converted attached children to
that very list, so the input's post-call `topics` value is the original list
extended by the converted children, and the input is genuinely modified. -/
theorem C9_amended (gen : Nat → String) :
    (∀ (j : Json) (ctr : Nat) (o p : Json) (c' : Nat), j.truthy = false →
      convert_topic gen j ctr = some (o, p, c') → p = j) ∧
    (∀ (fs : List (String × Json)) (ctr : Nat) (o p : Json) (c' : Nat),
      (Json.obj fs).truthy = true → hasLegacyList (.obj fs) = false →
      (∀ cfs, (Json.obj fs).getN "children" ≠ .obj cfs) →
      convert_topic gen (.obj fs) ctr = some (o, p, c') → p = .obj fs) ∧
    (∀ (fs : List (String × Json)) (l : List Json) (ctr : Nat)
        (pairs : List (Json × Json)) (c' : Nat),
      (Json.obj fs).truthy = true →
      (Json.obj fs).getN "topics" = .arr l →
      convert_children gen (childrenAttached (.obj fs)) ctr = some (pairs, c') →
      ∀ (o p : Json) (c'' : Nat),
        convert_topic gen (.obj fs) ctr = some (o, p, c'') →
        p.getN "topics" = .arr (l ++ pairs.map Prod.fst) ∧
        (pairs ≠ [] → p ≠ .obj fs)) := by
  refine ⟨?_, ?_, ?_⟩
  · intro j ctr o p c' hf hconv
    rw [convert_topic_falsy gen j ctr hf] at hconv
    simp only [Option.some.injEq, Prod.mk.injEq] at hconv
    exact hconv.2.1.symm
  · intro fs ctr o p c' ht hnl hnc hconv
    rw [convert_topic_obj gen fs ctr ht] at hconv
    cases hcc : convert_children gen (childrenAttached (.obj fs)) ctr with
    | none => rw [hcc] at hconv; exact Option.noConfusion hconv
    | some r =>
      obtain ⟨pairs, c''⟩ := r
      rw [hcc] at hconv
      dsimp only at hconv
      simp only [Option.some.injEq, Prod.mk.injEq] at hconv
      obtain ⟨ho, hp, hc⟩ := hconv
      rw [← hp]
      cases hch : (Json.obj fs).getN "children" with
      | obj cfs => exact absurd hch (hnc cfs)
      | null => simp [postState, hnl, hch]
      | bool b => simp [postState, hnl, hch]
      | num n => simp [postState, hnl, hch]
      | str s => simp [postState, hnl, hch]
      | arr a => simp [postState, hnl, hch]
  · intro fs l ctr pairs c' ht hl hcc o p c'' hconv
    rw [convert_topic_obj gen fs ctr ht, hcc] at hconv
    dsimp only at hconv
    simp only [Option.some.injEq, Prod.mk.injEq] at hconv
    obtain ⟨ho, hp, hc⟩ := hconv
    have htop : p.getN "topics" = .arr (l ++ pairs.map Prod.fst) := by
      rw [← hp]
      exact postState_topics hl _ _
    refine ⟨htop, ?_⟩
    intro hpairs hcontra
    have harr : Json.arr l = Json.arr (l ++ pairs.map Prod.fst) := by
      rw [← hl, ← htop, hcontra]
    simp only [Json.arr.injEq] at harr
    have hlen := congrArg List.length harr
    rw [List.length_append] at hlen
    have hzero : (pairs.map Prod.fst).length = 0 := by omega
    rw [List.length_map] at hzero
    exact hpairs (List.length_eq_zero.mp hzero)

/-- C9, witness: the amended mutation law at the concrete two-list topic. -/
theorem C9_witness :
    postBoth.getN "topics" = .arr ([rawA] ++ [convC]) ∧ postBoth ≠ rawBoth := by
  have h := (C9_amended genDemo).2.2
    [("topics", .arr [rawA]), ("children", .obj [("attached", .arr [rawC])])]
    [rawA] 0 [(convC, rawC)] 0 rfl rfl rfl outBoth postBoth 0 rfl
  exact ⟨h.1, h.2 (List.cons_ne_nil _ _)⟩

/-- C7, counterexample. In the MODERN (dict-root) branch of
`convert_to_xmind_format` the sheet's topic is taken only from the `topic`
key — `sheet.get('topic', {})` has no `rootTopic` fallback — so a modern
sheet carrying only a `rootTopic` (with id `"r"`) gets a synthesized empty
topic (id `"u0"` from the uuid supply), not its root topic. -/
theorem C7_counterexample :
    convert_to_xmind_format genDemo
        (.obj [("sheets", .arr [.obj [("id", .str "s"),
          ("rootTopic", .obj [("id", .str "r")])]])]) 0
      = some ([.obj [("id", .str "s"), ("title", .null),
          ("topic", emptyTopic "u0")]], 1) ∧
    (emptyTopic "u0").getN "id" = .str "u0" ∧
    ((Json.obj [("id", .str "s"), ("rootTopic", .obj [("id", .str "r")])]).getN
        "rootTopic").getN "id" = .str "r" := ⟨rfl, rfl, rfl⟩

/-- C7, amended. For legacy (array-root) sheets the raw topic is the value of
`topic`, else the value of `rootTopic`, else `{}`; for modern (dict-root)
sheets only the `topic` key is consulted — `rootTopic` is ignored. A falsy
raw topic value is replaced by a synthesized minimal empty Topic whose id is
the freshly generated identifier (non-empty when the supply yields non-empty
strings) and whose other scalar fields are null with empty markers and
children, so every converted Sheet carries a well-formed topic dict. -/
theorem C7_amended (gen : Nat → String) (hgen : ∀ n, gen n ≠ "") :
    (∀ sheet t, sheet.get? "topic" = some t → legacyTopicRaw sheet = t) ∧
    (∀ sheet rt, sheet.get? "topic" = none → sheet.get? "rootTopic" = some rt →
      legacyTopicRaw sheet = rt) ∧
    (∀ sheet, sheet.get? "topic" = none → sheet.get? "rootTopic" = none →
      legacyTopicRaw sheet = .obj []) ∧
    (∀ sheet, sheet.get? "topic" = none → modernTopicRaw sheet = .obj []) ∧
    (∀ sheet t, sheet.get? "topic" = some t → modernTopicRaw sheet = t) ∧
    (∀ j ctr, j.truthy = false →
      convert_topic gen j ctr = some (emptyTopic (gen ctr), j, ctr + 1)) ∧
    (∀ u, (emptyTopic u).getN "id" = .str u ∧ (emptyTopic u).getN "link" = .null ∧
      (emptyTopic u).getN "title" = .null ∧ (emptyTopic u).getN "note" = .null ∧
      (emptyTopic u).getN "label" = .null ∧ (emptyTopic u).getN "comment" = .null ∧
      (emptyTopic u).getN "markers" = .arr [] ∧ (emptyTopic u).getN "topics" = .arr []) ∧
    (∀ n, (emptyTopic (gen n)).getN "id" ≠ .str "") ∧
    (∀ fs ctr, convert_sheet_legacy gen (.obj fs) ctr =
      match convert_topic gen (legacyTopicRaw (.obj fs)) ctr with
      | none => none
      | some (o, _, c) => some (sheetOut (.obj fs) o, c)) ∧
    (∀ fs ctr, convert_sheet_modern gen (.obj fs) ctr =
      match convert_topic gen (modernTopicRaw (.obj fs)) ctr with
      | none => none
      | some (o, _, c) => some (sheetOut (.obj fs) o, c)) := by
  refine ⟨?_, ?_, ?_, ?_, ?_, convert_topic_falsy gen, ?_, ?_,
    fun fs ctr => rfl, fun fs ctr => rfl⟩
  · intro sheet t h
    unfold legacyTopicRaw
    rw [h]
  · intro sheet rt h1 h2
    unfold legacyTopicRaw
    rw [h1, h2]
  · intro sheet h1 h2
    unfold legacyTopicRaw
    rw [h1, h2]
  · intro sheet h
    unfold modernTopicRaw
    rw [h]
    rfl
  · intro sheet t h
    unfold modernTopicRaw
    rw [h]
    rfl
  · intro u
    exact ⟨rfl, rfl, rfl, rfl, rfl, rfl, rfl, rfl⟩
  · intro n h
    have hs : gen n = "" := by
      have := h
      injection this
    exact hgen n hs

/-- C7, witness: the amended selection rules at concrete sheets, plus the
synthesized topic of a falsy raw value. -/
theorem C7_witness :
    legacyTopicRaw (.obj [("rootTopic", .obj [("id", .str "r")])])
        = .obj [("id", .str "r")] ∧
    modernTopicRaw (.obj [("rootTopic", .obj [("id", .str "r")])]) = .obj [] ∧
    convert_topic genDemo (.obj []) 5
        = some (emptyTopic (genDemo 5), .obj [], 6) ∧
    (emptyTopic (genDemo 5)).getN "id" ≠ .str "" := by
  refine ⟨?_, ?_, ?_, ?_⟩
  · exact (C7_amended genDemo genDemo_ne_empty).2.1
      (.obj [("rootTopic", .obj [("id", .str "r")])]) (.obj [("id", .str "r")])
      rfl rfl
  · exact (C7_amended genDemo genDemo_ne_empty).2.2.2.1
      (.obj [("rootTopic", .obj [("id", .str "r")])]) rfl
  · exact (C7_amended genDemo genDemo_ne_empty).2.2.2.2.2.1 (.obj []) 5 rfl
  · exact (C7_amended genDemo genDemo_ne_empty).2.2.2.2.2.2.2.1 5
